import Mathlib

/-!
Shallow embedding of the `nodframe` columnar-frame library (src/src/lib.rs)
and proofs of its specification's claims.

Modelling conventions:
* Rust `Vec` becomes `List`; field and function names follow the source.
* A Rust panic (`unwrap`, out-of-range indexing) is modelled by returning
  `none`: a function that can panic returns an `Option`.
* `HashMap<String, usize>` built by `collect` over `(key, index)` pairs is
  modelled as the association list of those pairs; lookup returns the value
  of the last pair with the key, matching insert-overwrite semantics.
* The generic scalar `T: PartialOrd + Eq + ...` is modelled as a type with a
  `LinearOrder` (and `ToString` where rendering needs it).
* The csv collaborator is external: `frame_from_csv` is modelled from the
  point where the header and the records have been read successfully, so a
  `none` of the model corresponds exactly to a panic of the source.
-/

namespace Nodframe

/-- Comp enum for filtering (src: `enum Comp`). -/
inductive Comp where
  | Eq
  | Geq
  | Leq
  | Les
  | Gra
  | Not
deriving DecidableEq

/-- src: `pub fn compare<T: PartialOrd>(a: T, op: &Comp, b: T) -> bool`. -/
def compare {T : Type} [LinearOrder T] (a : T) (op : Comp) (b : T) : Bool :=
  match op with
  | Comp.Eq => decide (a = b)
  | Comp.Les => decide (a < b)
  | Comp.Gra => decide (a > b)
  | Comp.Geq => decide (a ≥ b)
  | Comp.Leq => decide (a ≤ b)
  | Comp.Not => decide (a ≠ b)

/-- src: `pub struct DiscreteColumn { key: String, items: Vec<String> }`. -/
structure DiscreteColumn where
  key : String
  items : List String
deriving DecidableEq

/-- src: `pub struct NumericColumn<T> { key: String, items: Vec<T> }`. -/
structure NumericColumn (T : Type) where
  key : String
  items : List T
deriving DecidableEq

/-- src: `pub enum Column<T> { Numeric(NumericColumn<T>), Discrete(DiscreteColumn) }`. -/
inductive Column (T : Type) where
  | Numeric : NumericColumn T → Column T
  | Discrete : DiscreteColumn → Column T
deriving DecidableEq

/-- src: `DiscreteColumn::binary_view` — `items.iter().zip(picker).filter(|(_, b)| **b).map(|(a, _)| a.clone()).collect()`. -/
def DiscreteColumn.binary_view (c : DiscreteColumn) (picker : List Bool) : DiscreteColumn :=
  { key := c.key
    items := ((c.items.zip picker).filter (fun p => p.2)).map (fun p => p.1) }

/-- src: `NumericColumn::binary_view` — same zip/filter/map as the discrete one. -/
def NumericColumn.binary_view {T : Type} (c : NumericColumn T) (picker : List Bool) :
    NumericColumn T :=
  { key := c.key
    items := ((c.items.zip picker).filter (fun p => p.2)).map (fun p => p.1) }

/-- src: `DiscreteColumn::len`. -/
def DiscreteColumn.len (c : DiscreteColumn) : Nat := c.items.length

/-- src: `NumericColumn::len`. -/
def NumericColumn.len {T : Type} (c : NumericColumn T) : Nat := c.items.length

/-- src: `DiscreteColumn::filter_array` — pushes `val.eq(n)` for each item `n`. -/
def DiscreteColumn.filter_array (c : DiscreteColumn) (val : String) : List Bool :=
  c.items.map (fun n => decide (val = n))

/-- src: `NumericColumn::filter_array` — `items.iter().map(|x| compare(x, &comparison, val))`. -/
def NumericColumn.filter_array {T : Type} [LinearOrder T] (c : NumericColumn T) (val : T)
    (comparison : Comp) : List Bool :=
  c.items.map (fun x => compare x comparison val)

/-- src: `DiscreteColumn::to_string` — `"<key>: [" + items.join(", ") + "]"`. -/
def DiscreteColumn.to_string (c : DiscreteColumn) : String :=
  c.key ++ ": [" ++ String.intercalate ", " c.items ++ "]"

/-- src: `NumericColumn::to_string` — `"<key>: [" + str_form.join(", ") + "]"`. -/
def NumericColumn.to_string {T : Type} [ToString T] (c : NumericColumn T) : String :=
  c.key ++ ": [" ++ String.intercalate ", " (c.items.map toString) ++ "]"

/-- src: `Column::get_key`. -/
def Column.get_key {T : Type} : Column T → String
  | Column.Discrete x => x.key
  | Column.Numeric x => x.key

/-- src: `Column::filter_array` — dispatches on the variant; the `unwrap()` of
the wrong optional is modelled by `Option.map`, so a missing operand of the
required kind yields `none` (a panic in the source). -/
def Column.filter_array {T : Type} [LinearOrder T] (c : Column T) (comp : Comp)
    (val : Option T) (str_val : Option String) : Option (List Bool) :=
  match c with
  | Column.Discrete d => str_val.map (fun s => d.filter_array s)
  | Column.Numeric n => val.map (fun v => n.filter_array v comp)

/-- src: `Column::binary_view` — variant preserving. -/
def Column.binary_view {T : Type} (c : Column T) (picker : List Bool) : Column T :=
  match c with
  | Column.Numeric n => Column.Numeric (n.binary_view picker)
  | Column.Discrete d => Column.Discrete (d.binary_view picker)

/-- src: `Column::len`. -/
def Column.len {T : Type} : Column T → Nat
  | Column.Numeric n => n.len
  | Column.Discrete d => d.len

/-- src: `Column::to_string`. -/
def Column.to_string {T : Type} [ToString T] : Column T → String
  | Column.Numeric n => n.to_string
  | Column.Discrete d => d.to_string

/-- src: `pub struct NodFrame<T>` with its four fields. -/
structure NodFrame (T : Type) where
  columns : List (Column T)
  column_idx : List (String × Nat)
  num_rows : Nat
  num_cols : Nat
deriving DecidableEq

/-- Lookup in the modelled `HashMap<String, usize>`: the value of the last
pair carrying the key (collect-with-overwrite semantics). -/
def hashGet (m : List (String × Nat)) (k : String) : Option Nat :=
  (m.reverse.find? (fun p => p.1 == k)).map (fun p => p.2)

/-- src: `(0..cols.len()).map(|i| (cols[i].get_key().clone(), i)).collect()`. -/
def build_column_idx {T : Type} (cols : List (Column T)) : List (String × Nat) :=
  cols.enum.map (fun p => (p.2.get_key, p.1))

/-- src: `NodFrame::filter_frame`. The `unwrap()` on the name lookup, the
indexing `self.columns[col_idx]`, the operand `unwrap()` inside
`filter_array`, and the indexing `copy.columns[0]` are the panic sites,
modelled by the `none` branches. -/
def NodFrame.filter_frame {T : Type} [LinearOrder T] (f : NodFrame T) (col : String)
    (comp : Comp) (val : Option T) (str_val : Option String) : Option (NodFrame T) :=
  match hashGet f.column_idx col with
  | none => none
  | some col_idx =>
    match f.columns[col_idx]? with
    | none => none
    | some c =>
      match c.filter_array comp val str_val with
      | none => none
      | some picker =>
        let newCols := f.columns.map (fun x => x.binary_view picker)
        match newCols[0]? with
        | none => none
        | some c0 =>
          some { columns := newCols
                 column_idx := f.column_idx
                 num_rows := c0.len
                 num_cols := f.num_cols }

/-- src: `NodFrame::to_string` — starts from `"nodframe:\n"`, appends each
column's render and a newline, then `"Num Rows: "` and the row count. -/
def NodFrame.to_string {T : Type} [ToString T] (f : NodFrame T) : String :=
  (f.columns.foldl (fun acc c => acc ++ c.to_string ++ "\n") "nodframe:\n")
    ++ "Num Rows: " ++ toString f.num_rows

/-- src: `pub fn frame_from_vecs` — `num_data[0].len()` is an unconditional
index, a panic when there is no numeric data, modelled by the `none` branch. -/
def frame_from_vecs {T : Type} (num_keys : List String) (num_data : List (List T))
    (str_keys : List String) (str_data : List (List String)) : Option (NodFrame T) :=
  match num_data[0]? with
  | none => none
  | some firstCol =>
    let num_columns : List (Column T) :=
      (num_keys.zip num_data).map (fun p => Column.Numeric ⟨p.1, p.2⟩)
    let str_columns : List (Column T) :=
      (str_keys.zip str_data).map (fun p => Column.Discrete ⟨p.1, p.2⟩)
    let cols := num_columns ++ str_columns
    some { columns := cols
           column_idx := build_column_idx cols
           num_rows := firstCol.length
           num_cols := cols.length }

/-- src: the classification loop of `frame_from_csv` (`for i in 0..header.len()`),
run over the `(header[i], data[i])` pairs. `data[i][0].parse::<T>()` is the
unconditional first-cell index — a panic on an empty column, modelled by
`none`; a numeric column keeps exactly the cells that parse, in order. -/
def classify {T : Type} (parse : String → Option T) :
    List (String × List String) → Option (List (String × List T) × List (String × List String))
  | [] => some ([], [])
  | (k, col) :: rest =>
    match col[0]? with
    | none => none
    | some first =>
      match classify parse rest with
      | none => none
      | some (nums, discs) =>
        match parse first with
        | some _ => some ((k, col.filterMap parse) :: nums, discs)
        | none => some (nums, (k, col) :: discs)

/-- src: the column-major accumulation loop of `frame_from_csv`
(`data[i].push(row[i])` for `i in 0..header.len()`); `row[i]` is an index,
a panic on a short record, modelled by `none`. -/
def transpose_rows (n : Nat) (rows : List (List String)) : Option (List (List String)) :=
  (List.range n).mapM (fun i => rows.mapM (fun r => r[i]?))

/-- src: `pub fn frame_from_csv`, modelled from the successfully read header
and records onward (file/CSV decoding is the external codec collaborator). -/
def frame_from_csv_model {T : Type} (parse : String → Option T) (header : List String)
    (rows : List (List String)) : Option (NodFrame T) :=
  match transpose_rows header.length rows with
  | none => none
  | some data =>
    match classify parse (header.zip data) with
    | none => none
    | some (nums, discs) =>
      frame_from_vecs (nums.map (fun p => p.1)) (nums.map (fun p => p.2))
        (discs.map (fun p => p.1)) (discs.map (fun p => p.2))

/-- The frame invariants stated in the spec's data model: every column's
length equals `num_rows`, every index stored in `column_idx` is in range,
and `num_cols` counts the columns. -/
def NodFrame.wf {T : Type} (f : NodFrame T) : Prop :=
  (∀ c ∈ f.columns, c.len = f.num_rows) ∧
  (∀ p ∈ f.column_idx, p.2 < f.columns.length) ∧
  f.num_cols = f.columns.length

/-! ### Helper lemmas about the zip/filter/map masking kernel -/

theorem mask_items_length {α : Type} (l : List α) (m : List Bool) (h : l.length = m.length) :
    (((l.zip m).filter (fun p => p.2)).map (fun p => p.1)).length = m.count true := by
  induction l generalizing m with
  | nil =>
    cases m with
    | nil => simp
    | cons b m' => simp at h
  | cons a l ih =>
    cases m with
    | nil => simp at h
    | cons b m' =>
      simp only [List.length_cons, Nat.add_right_cancel_iff] at h
      cases b <;>
        simp [List.zip_cons_cons, List.filter_cons, List.count_cons, ih m' h]

theorem mask_items_enumFrom {α : Type} (l : List α) (m : List Bool) (k : Nat) :
    ((l.zip m).filter (fun p => p.2)).map (fun p => p.1)
      = ((List.enumFrom k l).filter (fun p => m.getD (p.1 - k) false)).map (fun p => p.2) := by
  induction l generalizing m k with
  | nil => simp
  | cons a l ih =>
    cases m with
    | nil => simp [List.enumFrom_cons, List.getD_nil, List.filter_cons]
    | cons b m' =>
      have htail : List.filter (fun p => (b :: m').getD (p.1 - k) false)
            (List.enumFrom (k + 1) l)
          = List.filter (fun p => m'.getD (p.1 - (k + 1)) false)
            (List.enumFrom (k + 1) l) := by
        apply List.filter_congr
        intro x hx
        obtain ⟨hle, -, -⟩ := List.mem_enumFrom hx
        have h1 : x.1 - k = (x.1 - (k + 1)) + 1 := by omega
        rw [h1, List.getD_cons_succ]
      cases b with
      | false =>
        rw [List.zip_cons_cons, List.enumFrom_cons]
        rw [List.filter_cons_of_neg (by simp),
          List.filter_cons_of_neg (by simp [Nat.sub_self])]
        rw [htail]
        exact ih m' (k + 1)
      | true =>
        rw [List.zip_cons_cons, List.enumFrom_cons]
        rw [List.filter_cons_of_pos (by simp),
          List.filter_cons_of_pos (by simp [Nat.sub_self])]
        rw [List.map_cons, List.map_cons, htail, ih m' (k + 1)]

/-- The masking kernel keeps exactly the elements whose index carries a
`true` in the mask, in their original order (out-of-range mask indices read
as `false`, which also captures the truncation done by `zip`). -/
theorem mask_items_eq {α : Type} (l : List α) (m : List Bool) :
    ((l.zip m).filter (fun p => p.2)).map (fun p => p.1)
      = (l.enum.filter (fun p => m.getD p.1 false)).map (fun p => p.2) := by
  have h := mask_items_enumFrom l m 0
  simpa [List.enum] using h

theorem Column.binary_view_len {T : Type} (c : Column T) (m : List Bool)
    (h : c.len = m.length) :
    (c.binary_view m).len = m.count true := by
  cases c with
  | Numeric n =>
    exact mask_items_length n.items m h
  | Discrete d =>
    exact mask_items_length d.items m h

theorem Column.filter_array_length {T : Type} [LinearOrder T] (c : Column T) (comp : Comp)
    (val : Option T) (str_val : Option String) (picker : List Bool)
    (h : c.filter_array comp val str_val = some picker) : picker.length = c.len := by
  cases c with
  | Numeric n =>
    cases val with
    | none => simp [Column.filter_array] at h
    | some v =>
      simp only [Column.filter_array, Option.map_some', Option.some.injEq] at h
      subst h
      simp [NumericColumn.filter_array, NumericColumn.len, Column.len]
  | Discrete d =>
    cases str_val with
    | none => simp [Column.filter_array] at h
    | some s =>
      simp only [Column.filter_array, Option.map_some', Option.some.injEq] at h
      subst h
      simp [DiscreteColumn.filter_array, DiscreteColumn.len, Column.len]

/-! ### Helper lemmas about the modelled hash map -/

theorem hashGet_mem {m : List (String × Nat)} {k : String} {i : Nat}
    (h : hashGet m k = some i) : (k, i) ∈ m := by
  unfold hashGet at h
  cases hf : m.reverse.find? (fun p => p.1 == k) with
  | none => rw [hf] at h; simp at h
  | some p =>
    rw [hf] at h
    simp only [Option.map_some', Option.some.injEq] at h
    have hp := List.find?_some hf
    have hm : p ∈ m.reverse := List.mem_of_find?_eq_some hf
    have hk : p.1 = k := by simpa using hp
    have : p = (k, i) := by
      cases p
      simp_all
    rw [this] at hm
    exact List.mem_reverse.mp hm

theorem hashGet_isSome_of_mem {m : List (String × Nat)} {k : String} {i : Nat}
    (h : (k, i) ∈ m) : ∃ j, hashGet m k = some j := by
  unfold hashGet
  cases hf : m.reverse.find? (fun p => p.1 == k) with
  | none =>
    exfalso
    have := List.find?_eq_none.mp hf (k, i) (List.mem_reverse.mpr h)
    simp at this
  | some p => exact ⟨p.2, by simp⟩

/-! ### Helper lemmas about string rendering -/

theorem string_foldl_append (l : List String) (s : String) :
    List.foldl (fun r t => r ++ t) s l = s ++ List.foldl (fun r t => r ++ t) "" l := by
  induction l generalizing s with
  | nil => simp
  | cons a l ih =>
    simp only [List.foldl_cons]
    rw [ih (s ++ a), ih (("" : String) ++ a)]
    simp [String.append_assoc]

theorem string_join_cons (s : String) (l : List String) :
    String.join (s :: l) = s ++ String.join l := by
  simp only [String.join, List.foldl_cons]
  rw [string_foldl_append l (("" : String) ++ s)]
  simp

theorem render_foldl {T : Type} [ToString T] (cols : List (Column T)) (init : String) :
    cols.foldl (fun acc c => acc ++ c.to_string ++ "\n") init
      = init ++ String.join (cols.map (fun c => c.to_string ++ "\n")) := by
  induction cols generalizing init with
  | nil => simp [String.join]
  | cons c cs ih =>
    simp only [List.foldl_cons, List.map_cons]
    rw [ih, string_join_cons]
    simp [String.append_assoc]

/-! ### Concrete fixtures used by witnesses and counterexamples -/

/-- The frame of the repository's own `csv_test`. -/
def sampleFrame : NodFrame Int :=
  { columns := [Column.Numeric ⟨"value", [1, 2, 3, 4]⟩,
                Column.Numeric ⟨"whoop", [14, 54, 7, 2]⟩,
                Column.Discrete ⟨"kabang", ["1a", "2a", "3a", "4a"]⟩]
    column_idx := [("value", 0), ("whoop", 1), ("kabang", 2)]
    num_rows := 4
    num_cols := 3 }

/-- A one-column frame used to exercise rendering. -/
def renderFrame : NodFrame Int :=
  { columns := [Column.Numeric ⟨"a", [1]⟩]
    column_idx := [("a", 0)]
    num_rows := 1
    num_cols := 1 }

/-! ### Claim theorems -/

/-- C2: for masks of matching length, `binary_view` (numeric and discrete)
returns a column of length `count_true(mask)` holding exactly the elements
whose index carries `true` in the mask, in their original relative order,
with the column name preserved. The input column is untouched: the embedded
operation is pure and builds a fresh column, mirroring the source's
`clone`/`collect`. -/
theorem binary_view_mask_spec {T : Type} (c : NumericColumn T) (d : DiscreteColumn)
    (m md : List Bool) (hm : m.length = c.items.length) (hd : md.length = d.items.length) :
    (c.binary_view m).items.length = m.count true
    ∧ (c.binary_view m).items
        = (c.items.enum.filter (fun p => m.getD p.1 false)).map (fun p => p.2)
    ∧ (c.binary_view m).key = c.key
    ∧ (d.binary_view md).items.length = md.count true
    ∧ (d.binary_view md).items
        = (d.items.enum.filter (fun p => md.getD p.1 false)).map (fun p => p.2)
    ∧ (d.binary_view md).key = d.key :=
  ⟨mask_items_length c.items m hm.symm, mask_items_eq c.items m, rfl,
   mask_items_length d.items md hd.symm, mask_items_eq d.items md, rfl⟩

/-- Witness for C2 at concrete inputs. -/
theorem binary_view_mask_spec_witness :
    (([true, false, true] : List Bool).length = ([10, 20, 30] : List Int).length)
    ∧ (([false, true] : List Bool).length = (["x", "y"] : List String).length)
    ∧ ((NumericColumn.binary_view ⟨"a", ([10, 20, 30] : List Int)⟩
          [true, false, true]).items.length = ([true, false, true] : List Bool).count true
       ∧ (NumericColumn.binary_view ⟨"a", ([10, 20, 30] : List Int)⟩
            [true, false, true]).items
          = ((([10, 20, 30] : List Int)).enum.filter
              (fun p => ([true, false, true] : List Bool).getD p.1 false)).map (fun p => p.2)
       ∧ (NumericColumn.binary_view ⟨"a", ([10, 20, 30] : List Int)⟩
            [true, false, true]).key = "a"
       ∧ (DiscreteColumn.binary_view ⟨"b", ["x", "y"]⟩ [false, true]).items.length
          = ([false, true] : List Bool).count true
       ∧ (DiscreteColumn.binary_view ⟨"b", ["x", "y"]⟩ [false, true]).items
          = ((["x", "y"] : List String).enum.filter
              (fun p => ([false, true] : List Bool).getD p.1 false)).map (fun p => p.2)
       ∧ (DiscreteColumn.binary_view ⟨"b", ["x", "y"]⟩ [false, true]).key = "b") :=
  ⟨by decide, by decide,
   binary_view_mask_spec ⟨"a", ([10, 20, 30] : List Int)⟩ ⟨"b", ["x", "y"]⟩
     [true, false, true] [false, true] (by decide) (by decide)⟩

/-- C4: the dispatcher's predicate mask on a discrete column has one entry
per element, entry `i` being `items[i] = v`, for every requested comparator
`op` and every (ignored) numeric operand: the discrete filter hardcodes
equality. -/
theorem discrete_mask_equality_only {T : Type} [LinearOrder T] (d : DiscreteColumn)
    (op : Comp) (val : Option T) (v : String) :
    (Column.Discrete d : Column T).filter_array op val (some v)
      = some (d.items.map (fun s => decide (s = v))) := by
  simp only [Column.filter_array, DiscreteColumn.filter_array, Option.map_some',
    Option.some.injEq]
  exact List.map_congr_left (fun a _ => by simp [eq_comm])

/-- C7: filtering on a column name absent from the frame's name index panics
(`unwrap` of a failed lookup), it does not return a frame. -/
theorem filter_frame_missing_key {T : Type} [LinearOrder T] (f : NodFrame T) (k : String)
    (op : Comp) (val : Option T) (sv : Option String)
    (h : hashGet f.column_idx k = none) :
    f.filter_frame k op val sv = none := by
  unfold NodFrame.filter_frame
  rw [h]

/-- Witness for C7: the sample frame has no column named `"nope"`. -/
theorem filter_frame_missing_key_witness :
    hashGet sampleFrame.column_idx "nope" = none
    ∧ sampleFrame.filter_frame "nope" Comp.Eq (some 1) none = none :=
  ⟨by decide,
   filter_frame_missing_key sampleFrame "nope" Comp.Eq (some 1) none (by decide)⟩

/-- C8 counterexample: with a mask strictly shorter than the column,
`binary_view` does not fail — it returns a column (the `zip` silently
truncates to [5]). -/
theorem binary_view_mismatch_cex :
    NumericColumn.binary_view ⟨"a", ([5, 6, 7] : List Int)⟩ [true]
      = (⟨"a", ([5] : List Int)⟩ : NumericColumn Int) := by
  decide

/-- C8 amended: on a mask whose length differs from the column's,
`binary_view` (numeric and discrete) returns a column rather than failing:
the name is kept and the items are those whose index reads `true` in the
mask, truncated to the shorter of the two lengths, in original order. -/
theorem binary_view_mismatch_spec {T : Type} (c : NumericColumn T) (d : DiscreteColumn)
    (m md : List Bool) (hm : m.length ≠ c.items.length) (hd : md.length ≠ d.items.length) :
    (c.binary_view m).key = c.key
    ∧ (c.binary_view m).items
        = (c.items.enum.filter (fun p => m.getD p.1 false)).map (fun p => p.2)
    ∧ (d.binary_view md).key = d.key
    ∧ (d.binary_view md).items
        = (d.items.enum.filter (fun p => md.getD p.1 false)).map (fun p => p.2) :=
  ⟨rfl, mask_items_eq c.items m, rfl, mask_items_eq d.items md⟩

/-- Witness for the amended C8 at concrete mismatched inputs. -/
theorem binary_view_mismatch_spec_witness :
    (([true] : List Bool).length ≠ ([5, 6, 7] : List Int).length)
    ∧ (([true, false, true] : List Bool).length ≠ (["x"] : List String).length)
    ∧ ((NumericColumn.binary_view ⟨"a", ([5, 6, 7] : List Int)⟩ [true]).key = "a"
       ∧ (NumericColumn.binary_view ⟨"a", ([5, 6, 7] : List Int)⟩ [true]).items
          = ((([5, 6, 7] : List Int)).enum.filter
              (fun p => ([true] : List Bool).getD p.1 false)).map (fun p => p.2)
       ∧ (DiscreteColumn.binary_view ⟨"b", ["x"]⟩ [true, false, true]).key = "b"
       ∧ (DiscreteColumn.binary_view ⟨"b", ["x"]⟩ [true, false, true]).items
          = (((["x"] : List String)).enum.filter
              (fun p => ([true, false, true] : List Bool).getD p.1 false)).map
              (fun p => p.2)) :=
  ⟨by decide, by decide,
   binary_view_mismatch_spec ⟨"a", ([5, 6, 7] : List Int)⟩ ⟨"b", ["x"]⟩
     [true] [true, false, true] (by decide) (by decide)⟩

/-- C9 counterexample: the frame render does not start with `"frame:\n"` —
the source writes `"nodframe:\n"`. -/
theorem nodframe_render_cex :
    renderFrame.to_string ≠ "frame:\na: [1]\nNum Rows: 1" := by
  decide

/-- C9 amended: the frame render equals `"nodframe:\n"` followed by each
column's render and a newline, then `"Num Rows: "` and the row count; a
column renders as `"<name>: [<v0>, <v1>, ...]"`, comma-space separated, with
numeric values in canonical string form and discrete values verbatim. -/
theorem nodframe_render_spec {T : Type} [ToString T] (f : NodFrame T)
    (n : NumericColumn T) (d : DiscreteColumn) :
    f.to_string
      = "nodframe:\n" ++ String.join (f.columns.map (fun c => c.to_string ++ "\n"))
        ++ "Num Rows: " ++ toString f.num_rows
    ∧ (Column.Numeric n : Column T).to_string
        = n.key ++ ": [" ++ String.intercalate ", " (n.items.map toString) ++ "]"
    ∧ (Column.Discrete d : Column T).to_string
        = d.key ++ ": [" ++ String.intercalate ", " d.items ++ "]" := by
  refine ⟨?_, rfl, rfl⟩
  unfold NodFrame.to_string
  rw [render_foldl]

/-- Lookup in the index built by `build_column_idx` is correct when the
column names are distinct: `nm` maps to `j` iff the column at `j` is named
`nm`. -/
theorem hashGet_build_column_idx {T : Type} (cols : List (Column T))
    (hnd : (cols.map Column.get_key).Nodup) (nm : String) (j : Nat) :
    hashGet (build_column_idx cols) nm = some j ↔
      ∃ c, cols[j]? = some c ∧ c.get_key = nm := by
  constructor
  · intro h
    have hmem : (nm, j) ∈ build_column_idx cols := hashGet_mem h
    unfold build_column_idx at hmem
    obtain ⟨p, hp, he⟩ := List.mem_map.mp hmem
    obtain ⟨i0, c⟩ := p
    simp only [Prod.mk.injEq] at he
    obtain ⟨hkey, hi⟩ := he
    subst hi
    exact ⟨c, List.mk_mem_enum_iff_getElem?.mp hp, hkey⟩
  · rintro ⟨c, hc, hkey⟩
    have hmem : (nm, j) ∈ build_column_idx cols := by
      unfold build_column_idx
      exact List.mem_map.mpr ⟨(j, c), List.mk_mem_enum_iff_getElem?.mpr hc, by rw [hkey]⟩
    obtain ⟨j', hj'⟩ := hashGet_isSome_of_mem hmem
    have hmem' : (nm, j') ∈ build_column_idx cols := hashGet_mem hj'
    unfold build_column_idx at hmem'
    obtain ⟨p', hp', he'⟩ := List.mem_map.mp hmem'
    obtain ⟨i1, c'⟩ := p'
    simp only [Prod.mk.injEq] at he'
    obtain ⟨hkey', hi1⟩ := he'
    have hc' : cols[j']? = some c' := by
      rw [← hi1]
      exact List.mk_mem_enum_iff_getElem?.mp hp'
    have hj1 : (cols.map Column.get_key)[j]? = some nm := by
      rw [List.getElem?_map, hc]
      simp [hkey]
    have hj2 : (cols.map Column.get_key)[j']? = some nm := by
      rw [List.getElem?_map, hc']
      simp [hkey']
    have hjlt : j < (cols.map Column.get_key).length :=
      (List.getElem?_eq_some.mp hj1).1
    have hjj : j = j' := List.getElem?_inj hjlt hnd (hj1.trans hj2.symm)
    rw [hjj]
    exact hj'

/-- C3 counterexample: `frame_from_vecs` does not establish the frame
invariants for all inputs — with numeric data `[[1]]` and discrete data
`[["x", "y"]]` it returns a frame whose discrete column has length 2 while
`num_rows = 1`. -/
theorem frame_from_vecs_invariants_cex :
    ∃ F, frame_from_vecs ["a"] [([1] : List Int)] ["b"] [["x", "y"]] = some F
      ∧ ¬ (∀ c ∈ F.columns, c.len = F.num_rows) :=
  ⟨{ columns := [Column.Numeric ⟨"a", [1]⟩, Column.Discrete ⟨"b", ["x", "y"]⟩],
     column_idx := [("a", 0), ("b", 1)], num_rows := 1, num_cols := 2 },
   by decide, by decide⟩

/-- C3 amended: when every numeric and discrete data vector has the length
of the first numeric one, the key lists match the data lists in length, and
the column names are pairwise distinct, the frame built by `frame_from_vecs`
satisfies the invariants: every column's length equals `num_rows`, the name
index maps a name to a position iff that position holds the column of that
name (covering all and only the columns present), column names are unique,
every indexed position is in range, and `num_cols` counts the columns. -/
theorem frame_from_vecs_invariants {T : Type} (nk : List String) (d : List T)
    (nd : List (List T)) (sk : List String) (sd : List (List String))
    (hnk : nk.length = (d :: nd).length) (hsk : sk.length = sd.length)
    (hlen_n : ∀ l ∈ nd, l.length = d.length)
    (hlen_s : ∀ l ∈ sd, l.length = d.length)
    (hnodup : (nk ++ sk).Nodup) :
    ∃ F, frame_from_vecs nk (d :: nd) sk sd = some F
      ∧ (∀ c ∈ F.columns, c.len = F.num_rows)
      ∧ (∀ nm j, hashGet F.column_idx nm = some j ↔
          ∃ c, F.columns[j]? = some c ∧ c.get_key = nm)
      ∧ (F.columns.map Column.get_key).Nodup
      ∧ (∀ p ∈ F.column_idx, p.2 < F.columns.length)
      ∧ F.num_cols = F.columns.length := by
  have hkeys : ((((nk.zip (d :: nd)).map
        (fun (p : String × List T) => Column.Numeric (⟨p.1, p.2⟩ : NumericColumn T)))
      ++ ((sk.zip sd).map (fun (p : String × List String) =>
        (Column.Discrete ⟨p.1, p.2⟩ : Column T)))).map
        Column.get_key) = nk ++ sk := by
    rw [List.map_append, List.map_map, List.map_map]
    have h1 : ((nk.zip (d :: nd)).map
        (Column.get_key ∘ fun (p : String × List T) =>
          Column.Numeric (⟨p.1, p.2⟩ : NumericColumn T)))
        = nk := List.map_fst_zip nk (d :: nd) (le_of_eq hnk)
    have h2 : ((sk.zip sd).map
        (Column.get_key ∘ fun (p : String × List String) =>
          (Column.Discrete (⟨p.1, p.2⟩ : DiscreteColumn) : Column T)))
        = sk := List.map_fst_zip sk sd (le_of_eq hsk)
    rw [h1, h2]
  unfold frame_from_vecs
  rw [List.getElem?_cons_zero]
  refine ⟨_, rfl, ?_, ?_, ?_, ?_, rfl⟩
  · intro c hc
    rcases List.mem_append.mp hc with hmem | hmem
    · obtain ⟨⟨a, b⟩, hp, rfl⟩ := List.mem_map.mp hmem
      have hv : b ∈ d :: nd := (List.of_mem_zip hp).2
      rcases List.mem_cons.mp hv with he | he
      · simp [Column.len, NumericColumn.len, he]
      · simp [Column.len, NumericColumn.len, hlen_n b he]
    · obtain ⟨⟨a, b⟩, hp, rfl⟩ := List.mem_map.mp hmem
      have hv : b ∈ sd := (List.of_mem_zip hp).2
      simp [Column.len, DiscreteColumn.len, hlen_s b hv]
  · intro nm j
    apply hashGet_build_column_idx
    rw [hkeys]
    exact hnodup
  · rw [hkeys]
    exact hnodup
  · intro p hp
    unfold build_column_idx at hp
    obtain ⟨⟨i0, c⟩, hq, rfl⟩ := List.mem_map.mp hp
    have h := List.mk_mem_enum_iff_getElem?.mp hq
    exact (List.getElem?_eq_some.mp h).1

/-- Witness for the amended C3 at concrete well-shaped inputs. -/
theorem frame_from_vecs_invariants_witness :
    (["a"].length = ([([1, 2] : List Int)]).length)
    ∧ (["b"].length = ([["x", "y"]] : List (List String)).length)
    ∧ (∀ l ∈ ([] : List (List Int)), l.length = ([1, 2] : List Int).length)
    ∧ (∀ l ∈ ([["x", "y"]] : List (List String)), l.length = ([1, 2] : List Int).length)
    ∧ (["a", "b"] : List String).Nodup
    ∧ (∃ F, frame_from_vecs ["a"] [([1, 2] : List Int)] ["b"] [["x", "y"]] = some F
        ∧ (∀ c ∈ F.columns, c.len = F.num_rows)
        ∧ (∀ nm j, hashGet F.column_idx nm = some j ↔
            ∃ c, F.columns[j]? = some c ∧ c.get_key = nm)
        ∧ (F.columns.map Column.get_key).Nodup
        ∧ (∀ p ∈ F.column_idx, p.2 < F.columns.length)
        ∧ F.num_cols = F.columns.length) :=
  ⟨by decide, by decide, by decide, by decide, by decide,
   frame_from_vecs_invariants ["a"] [1, 2] [] ["b"] [["x", "y"]]
     (by decide) (by decide) (by decide) (by decide) (by decide)⟩

/-- C6: `frame_from_vecs` panics on empty numeric data (`num_data[0]` is an
unconditional index); on nonempty numeric data it returns a frame whose
columns are the numeric ones first, in the given order, then the discrete
ones in the given order, with `num_rows` the length of the first numeric
column's data. -/
theorem frame_from_vecs_spec {T : Type} (nk : List String) (d : List T)
    (nd : List (List T)) (sk : List String) (sd : List (List String)) :
    frame_from_vecs nk ([] : List (List T)) sk sd = none
    ∧ ∃ F, frame_from_vecs nk (d :: nd) sk sd = some F
        ∧ F.columns
            = ((nk.zip (d :: nd)).map (fun p => Column.Numeric ⟨p.1, p.2⟩))
              ++ ((sk.zip sd).map (fun p => Column.Discrete ⟨p.1, p.2⟩))
        ∧ F.num_rows = d.length
        ∧ F.num_cols = F.columns.length
        ∧ F.column_idx = build_column_idx F.columns := by
  constructor
  · rfl
  · unfold frame_from_vecs
    rw [List.getElem?_cons_zero]
    exact ⟨_, rfl, rfl, rfl, rfl, rfl⟩

theorem mapM_const_some {α β : Type} (l : List α) (b : β) :
    l.mapM (fun _ => (some b : Option β)) = some (l.map (fun _ => b)) := by
  induction l with
  | nil => rfl
  | cons a l ih =>
    rw [List.mapM_cons, ih]
    rfl

theorem transpose_rows_nil (n : Nat) :
    transpose_rows n ([] : List (List String)) = some (List.replicate n []) := by
  unfold transpose_rows
  have hfun : (fun i : Nat => (([] : List (List String)).mapM (fun r => r[i]?)))
      = (fun _ : Nat => (some ([] : List String))) := by
    funext i
    rfl
  rw [hfun, mapM_const_some (List.range n) ([] : List String), List.map_const',
    List.length_range]

/-- C5: in the classification loop of `frame_from_csv` (run on columns that
all have a first cell), a column is classified numeric iff its first cell
parses, a numeric column keeps exactly the cells that parse, in row order
(failing cells silently dropped), the other columns are kept discrete with
their raw strings, and the loop itself succeeds. -/
theorem classify_spec {T : Type} (parse : String → Option T)
    (pairs : List (String × List String)) (hne : ∀ p ∈ pairs, p.2 ≠ []) :
    classify parse pairs = some
      ((pairs.filter (fun p => (p.2.head?.bind parse).isSome)).map
          (fun p => (p.1, p.2.filterMap parse)),
       pairs.filter (fun p => !(p.2.head?.bind parse).isSome)) := by
  induction pairs with
  | nil => rfl
  | cons p rest ih =>
    obtain ⟨k, col⟩ := p
    have hcol : col ≠ [] := hne (k, col) (List.mem_cons_self _ _)
    have hrest : ∀ q ∈ rest, q.2 ≠ [] := fun q hq => hne q (List.mem_cons_of_mem _ hq)
    cases col with
    | nil => exact absurd rfl hcol
    | cons c0 cs =>
      simp only [classify, List.getElem?_cons_zero, ih hrest]
      cases hp : parse c0 with
      | some x => simp [List.filter_cons, List.head?_cons, hp]
      | none => simp [List.filter_cons, List.head?_cons, hp]

/-- Witness for C5 at a concrete parse function and concrete columns. -/
theorem classify_spec_witness :
    (∀ p ∈ [("a", ["7", "x"]), ("b", ["y"])], p.2 ≠ ([] : List String))
    ∧ classify (fun s => if s = "7" then some (7 : Int) else none)
        [("a", ["7", "x"]), ("b", ["y"])] = some
      (([("a", ["7", "x"]), ("b", ["y"])].filter
          (fun p => (p.2.head?.bind (fun s => if s = "7" then some (7 : Int)
            else none)).isSome)).map
          (fun p => (p.1, p.2.filterMap (fun s => if s = "7" then some (7 : Int)
            else none))),
       [("a", ["7", "x"]), ("b", ["y"])].filter
          (fun p => !(p.2.head?.bind (fun s => if s = "7" then some (7 : Int)
            else none)).isSome)) :=
  ⟨by decide,
   classify_spec (fun s => if s = "7" then some (7 : Int) else none)
     [("a", ["7", "x"]), ("b", ["y"])] (by decide)⟩

/-- C1: on a frame satisfying the invariants, filtering on a present column
name whose predicate mask is computed applies that single mask to every
column via `binary_view`; every result column has length `count_true(mask)`
and the result's `num_rows` equals `count_true(mask)`; the name index and
column count are carried over. -/
theorem filter_frame_spec {T : Type} [LinearOrder T] (f : NodFrame T) (k : String)
    (op : Comp) (val : Option T) (sv : Option String) (i : Nat) (c : Column T)
    (picker : List Bool) (hwf : f.wf) (hk : hashGet f.column_idx k = some i)
    (hc : f.columns[i]? = some c) (hmask : c.filter_array op val sv = some picker) :
    ∃ F, f.filter_frame k op val sv = some F
      ∧ F.columns = f.columns.map (fun x => x.binary_view picker)
      ∧ (∀ x ∈ F.columns, x.len = picker.count true)
      ∧ F.num_rows = picker.count true
      ∧ F.column_idx = f.column_idx
      ∧ F.num_cols = f.num_cols := by
  obtain ⟨hlen, hidx, hcols⟩ := hwf
  have hcmem : c ∈ f.columns := by
    obtain ⟨hlt, he⟩ := List.getElem?_eq_some.mp hc
    exact he ▸ List.getElem_mem hlt
  have hpick_len : picker.length = f.num_rows := by
    rw [Column.filter_array_length c op val sv picker hmask]
    exact hlen c hcmem
  obtain ⟨hlt, -⟩ := List.getElem?_eq_some.mp hc
  have hpos : 0 < f.columns.length := Nat.lt_of_le_of_lt (Nat.zero_le i) hlt
  obtain ⟨c0, hc0⟩ : ∃ c0, f.columns[0]? = some c0 := by
    rw [List.getElem?_eq_getElem hpos]
    exact ⟨_, rfl⟩
  have hc0mem : c0 ∈ f.columns := by
    obtain ⟨h0, he0⟩ := List.getElem?_eq_some.mp hc0
    exact he0 ▸ List.getElem_mem h0
  simp only [NodFrame.filter_frame, hk, hc, hmask, List.getElem?_map, hc0,
    Option.map_some']
  refine ⟨_, rfl, rfl, ?_, ?_⟩
  · intro x hx
    obtain ⟨y, hy, rfl⟩ := List.mem_map.mp hx
    exact Column.binary_view_len y picker ((hlen y hy).trans hpick_len.symm)
  · exact ⟨Column.binary_view_len c0 picker ((hlen c0 hc0mem).trans hpick_len.symm),
      rfl, rfl⟩

/-- Witness for C1 on the repository's own test frame, filtering
`value ≤ 2`. -/
theorem filter_frame_spec_witness :
    sampleFrame.wf
    ∧ hashGet sampleFrame.column_idx "value" = some 0
    ∧ sampleFrame.columns[0]? = some (Column.Numeric ⟨"value", [1, 2, 3, 4]⟩)
    ∧ (Column.Numeric (⟨"value", [1, 2, 3, 4]⟩ : NumericColumn Int)).filter_array
        Comp.Leq (some 2) none = some [true, true, false, false]
    ∧ (∃ F, sampleFrame.filter_frame "value" Comp.Leq (some 2) none = some F
        ∧ F.columns = sampleFrame.columns.map
            (fun x => x.binary_view [true, true, false, false])
        ∧ (∀ x ∈ F.columns, x.len = ([true, true, false, false] : List Bool).count true)
        ∧ F.num_rows = ([true, true, false, false] : List Bool).count true
        ∧ F.column_idx = sampleFrame.column_idx
        ∧ F.num_cols = sampleFrame.num_cols) :=
  ⟨⟨by decide, by decide, rfl⟩, by decide, by decide, by decide,
   filter_frame_spec sampleFrame "value" Comp.Leq (some 2) none 0
     (Column.Numeric ⟨"value", [1, 2, 3, 4]⟩) [true, true, false, false]
     ⟨by decide, by decide, rfl⟩ (by decide) (by decide) (by decide)⟩

/-- C10: loading a table with a non-empty header and zero data rows panics:
the classification loop indexes each column's first cell (`data[i][0]`)
unconditionally, and every column is empty. -/
theorem frame_from_csv_empty_rows_panics {T : Type} (parse : String → Option T)
    (h : String) (t : List String) :
    frame_from_csv_model parse (h :: t) ([] : List (List String)) = none := by
  unfold frame_from_csv_model
  rw [transpose_rows_nil]
  rfl

end Nodframe
